import Mathlib

/-!
Verification development for the CRT_Base propagation engine
(`src/include/CRT_Base.h` of the talises repository).

The engine advances a set of `no_int_states` complex-valued fields on a grid
of `m_no_of_pts` points by symmetric operator splitting.  We shallowly embed
the engine state and the step operators over ℚ, with the trigonometric
functions `cos`/`sin` and the in-place Fourier transform `ft` kept as
abstract parameters (they are external capabilities of the code).
-/

namespace CRTBase

/-- Model of `CPoint<dim>`: a `dim`-vector of coordinates. -/
def CPoint (dim : ℕ) : Type := Fin dim → ℚ

/-- Dot product of two points, the `CPoint::operator*` used as `px*x` and
`k.scale(m_alpha)*k` in the source. -/
def cdot {dim : ℕ} (a b : CPoint dim) : ℚ :=
∑ i : Fin dim, a i * b i

/-- Model of `CPoint::scale`: component-wise scaling, `k.scale(alpha)` = `diag(alpha)·k`. -/
def cscale {dim : ℕ} (a b : CPoint dim) : CPoint dim :=
fun i => a i * b i

/-- One complex field value `(real, imaginary)` stored as an `fftw_complex`. -/
def ComplexQ : Type := ℚ × ℚ

/-- An internal-state field: one complex value per grid-point index. -/
def Field : Type := ℕ → ComplexQ

/-- The in-place complex multiplication pattern that every step operator uses:
`tmp1 = Psi[0]; Psi[0] = Psi[0]*c - Psi[1]*d; Psi[1] = Psi[1]*c + tmp1*d`. -/
def cmul (z w : ComplexQ) : ComplexQ :=
(z.1 * w.1 - z.2 * w.2, z.2 * w.1 + z.1 * w.2)

/-- The engine state of `CRT_Base<T,dim,no_int_states>` restricted to the
members the step operators and the scheduler touch: the per-state fields
`m_fields`, the two operator tables `m_full_step` / `m_half_step`, the static
potential `m_Potential` with its initialization flag (`m_potenial_initialized`
in the source, `m_potInit` here), and the header's accumulated time `t` and
time step `dt`. -/
structure EngineState where
  m_fields : List Field
  m_full_step : ℕ → ComplexQ
  m_half_step : ℕ → ComplexQ
  m_Potential : ℕ → ℕ → ℚ
  m_potInit : Bool
  t : ℚ
  dt : ℚ

/-- Model of `Init()`: for every grid point `i` with momentum coordinate `k = Get_k(i)`,
with `dt = -m_header.dt`, compute `phi = dt*(k.scale(m_alpha)*k)` and write
`m_half_step[i] = (cos(0.5*phi), sin(0.5*phi))`,
`m_full_step[i] = (cos(phi), sin(phi))`.
Returns the pair `(m_half_step, m_full_step)`. -/
def Init {dim : ℕ} (cos sin : ℚ → ℚ) (header_dt : ℚ) (m_alpha : CPoint dim)
    (getK : ℕ → CPoint dim) : (ℕ → ComplexQ) × (ℕ → ComplexQ) :=
let dt := -header_dt
(fun i =>
   let k := getK i
   let phi := dt * cdot (cscale k m_alpha) k
   (cos (0.5 * phi), sin (0.5 * phi)),
 fun i =>
   let k := getK i
   let phi := dt * cdot (cscale k m_alpha) k
   (cos phi, sin phi))

/-- Model of `Init_Potential()`: resize every potential vector to `m_no_of_pts`
entries, all `0`, and set the initialization flag. -/
def Init_Potential (s : EngineState) : EngineState :=
{ s with m_Potential := fun _ _ => 0, m_potInit := true }

/-- Outcome of `Setup_Potential`, distinguishing the C++ failure modes:
`ok` (normal return), `thrown` (a `throw` of a typed object such as a
`std::string`, catchable by the caller), `terminated` (a bare `throw;` with
no exception in flight, which calls `std::terminate`), and `assertFailed`
(a failed `assert`, which aborts). Each failure constructor carries the
engine state at failure time. -/
inductive PotOutcome
  | ok (s : EngineState)
  | thrown (msg : String) (s : EngineState)
  | terminated (s : EngineState)
  | assertFailed (s : EngineState)

/-- Returns `true` exactly on the catchable-typed-failure outcome. -/
def PotOutcome.isThrown : PotOutcome → Bool
  | .thrown _ _ => true
  | _ => false

/-- Model of `Setup_Potential(comp, index, val)`: if `m_potenial_initialized == false`,
print a diagnostic and execute a bare `throw;` (modelled as `terminated`,
since no exception is in flight); then `assert(comp > -1 && comp < no_int_states)`
and `assert(index > -1 && comp < m_no_of_pts)` (the second conjunct of the
second assert reads `comp`, exactly as in the source); finally write
`m_Potential[comp][index] = val`. -/
def Setup_Potential (no_int_states m_no_of_pts : ℕ) (s : EngineState)
    (comp index : ℤ) (val : ℚ) : PotOutcome :=
if s.m_potInit = false then .terminated s
else if ¬ (comp > -1 ∧ comp < (no_int_states : ℤ)) then .assertFailed s
else if ¬ (index > -1 ∧ comp < (m_no_of_pts : ℤ)) then .assertFailed s
else .ok { s with
  m_Potential := fun i l =>
    if i = comp.toNat ∧ l = index.toNat then val else s.m_Potential i l }

/-- Model of `Do_FT_Step_full()`: transform every field forward (`ft(-1)`), multiply
every point of every field by `m_full_step[l]` via the in-place pattern,
transform every field back (`ft(1)`), then `m_header.t += m_header.dt`.
The Fourier transform is the external capability `ft : direction → Field → Field`. -/
def Do_FT_Step_full (ft : ℤ → Field → Field) (s : EngineState) : EngineState :=
let a := s.m_fields.map (ft (-1))
let b := a.map (fun Psi => fun l => cmul (Psi l) (s.m_full_step l))
let c := b.map (ft 1)
{ s with m_fields := c, t := s.t + s.dt }

/-- Model of `Do_FT_Step_half()`: as `Do_FT_Step_full` but with `m_half_step` and
`m_header.t += 0.5*m_header.dt`. -/
def Do_FT_Step_half (ft : ℤ → Field → Field) (s : EngineState) : EngineState :=
let a := s.m_fields.map (ft (-1))
let b := a.map (fun Psi => fun l => cmul (Psi l) (s.m_half_step l))
let c := b.map (ft 1)
{ s with m_fields := c, t := s.t + 0.5 * s.dt }

/-- The body of `Do_NL_Step()` for internal state `i` (potential column
`V = m_Potential[i]`) at each point `l`, with `dt = -m_header.dt` already
negated by the caller:
`phi = (m_potenial_initialized ? V[l] : 0)`;
`tmp_density = Psi[l][0]^2 + Psi[l][1]^2`;
`if (tmp_density <= 0) phi += 0.0; else { }` (the nonlinear `log`/`gs` terms
in the else branch are commented out in the source, so it is empty);
`phi *= dt`; then `sincos(phi, &im1, &re1)` and the in-place rotation. -/
def Do_NL_Step_field (cos sin : ℚ → ℚ) (dt : ℚ) (potInit : Bool)
    (V : ℕ → ℚ) (Psi : Field) : Field :=
fun l =>
  let phi0 : ℚ := if potInit then V l else 0
  let tmp_density := (Psi l).1 * (Psi l).1 + (Psi l).2 * (Psi l).2
  let phi1 := if tmp_density ≤ 0 then phi0 + 0 else phi0
  let phi := phi1 * dt
  let im1 := sin phi
  let re1 := cos phi
  ((Psi l).1 * re1 - (Psi l).2 * im1, (Psi l).2 * re1 + (Psi l).1 * im1)

/-- Index-aware map mirroring `for (i = 0; i < n; i++) body(i, a[i])`. -/
def mapWithIdx {α β : Type} (f : ℕ → α → β) : ℕ → List α → List β
  | _, [] => []
  | i, a :: as => f i a :: mapWithIdx f (i + 1) as

/-- Model of `Do_NL_Step()`: with `dt = -m_header.dt`, rotate every point of every
internal state `i` by the phase accumulated in `Do_NL_Step_field` (reading
`m_Potential[i]`). The header is not touched. -/
def Do_NL_Step (cos sin : ℚ → ℚ) (s : EngineState) : EngineState :=
let dt := -s.dt
let newFields :=
  mapWithIdx (fun i Psi => Do_NL_Step_field cos sin dt s.m_potInit (s.m_Potential i) Psi)
    0 s.m_fields
{ s with m_fields := newFields }

/-!
The four observable / setup routines share the literal guard
`if ( comp<0 || comp>no_int_states ) throw std::string("Error in ...")`.
Each is modelled as `Except String (Option _)`: `.error` is the thrown
string, `.ok none` marks the case in which the guard passed but
`m_fields[comp]` is an out-of-bounds access into the
`std::array<T*,no_int_states>` (undefined behavior in C++), and
`.ok (some _)` is a normal return.
-/

/-- Model of `Setup_Momentum(px, comp)`: guard, then multiply every point of field
`comp` by `exp(i·px·x)` with `sincos(px*x, &im, &re)`:
`Psi[l] := (re2*re - im2*im, re2*im + im2*re)`.
Returns the updated field list. -/
def Setup_Momentum {dim : ℕ} (no_int_states : ℕ) (cos sin : ℚ → ℚ)
    (getX : ℕ → CPoint dim) (px : CPoint dim) (m_fields : List Field)
    (comp : ℤ) : Except String (Option (List Field)) :=
if comp < 0 ∨ comp > (no_int_states : ℤ) then
  .error "Error in Setup_Momentum: comp out of bounds"
else
  match m_fields[comp.toNat]? with
  | none => .ok none
  | some Psi => .ok (some (m_fields.set comp.toNat (fun l =>
      let x := getX l
      let im := sin (cdot px x)
      let re := cos (cdot px x)
      let re2 := (Psi l).1
      let im2 := (Psi l).2
      (re2 * re - im2 * im, re2 * im + im2 * re))))

/-- Model of `Get_Particle_Number(comp)`: guard, then
`retval = Σ_l (Psi[l][0]^2 + Psi[l][1]^2)`, returning `m_ar*retval`. -/
def Get_Particle_Number (no_int_states m_no_of_pts : ℕ) (m_ar : ℚ)
    (m_fields : List Field) (comp : ℤ) : Except String (Option ℚ) :=
if comp < 0 ∨ comp > (no_int_states : ℤ) then
  .error "Error in Get_Particle_Number: comp out of bounds"
else
  match m_fields[comp.toNat]? with
  | none => .ok none
  | some Psi => .ok (some (m_ar *
      ∑ l ∈ Finset.range m_no_of_pts, ((Psi l).1 * (Psi l).1 + (Psi l).2 * (Psi l).2)))

/-- Model of `Expval_Position(retval, comp)`: guard, then accumulate
`x[i] * |Psi[l]|^2` over all points into per-axis sums (the per-thread
partial sums and their combine collapse to the plain sum) and scale by
`m_ar`. The field is only read. -/
def Expval_Position {dim : ℕ} (no_int_states m_no_of_pts : ℕ) (m_ar : ℚ)
    (getX : ℕ → CPoint dim) (m_fields : List Field) (comp : ℤ) :
    Except String (Option (CPoint dim)) :=
if comp < 0 ∨ comp > (no_int_states : ℤ) then
  .error "Error in Expval_Position: comp out of bounds"
else
  match m_fields[comp.toNat]? with
  | none => .ok none
  | some Psi => .ok (some (fun i =>
      m_ar * ∑ l ∈ Finset.range m_no_of_pts,
        getX l i * ((Psi l).1 * (Psi l).1 + (Psi l).2 * (Psi l).2)))

/-- Model of `Expval_Momentum(retval, comp)`: guard, then `m_fields[comp]->ft(-1)`,
accumulate `k[i] * |Psi[l]|^2` over all points (reading the transformed
field), `m_fields[comp]->ft(1)`, and scale the result by `m_ar_k`.
Returns the field list after the two transforms together with `retval`. -/
def Expval_Momentum {dim : ℕ} (no_int_states m_no_of_pts : ℕ) (m_ar_k : ℚ)
    (ft : ℤ → Field → Field) (getK : ℕ → CPoint dim) (m_fields : List Field)
    (comp : ℤ) : Except String (Option (List Field × CPoint dim)) :=
if comp < 0 ∨ comp > (no_int_states : ℤ) then
  .error "Error in Expval_Momentum: comp out of bounds"
else
  match m_fields[comp.toNat]? with
  | none => .ok none
  | some Psi0 =>
    let Psi := ft (-1) Psi0
    let res : CPoint dim := fun i =>
      ∑ l ∈ Finset.range m_no_of_pts,
        getK l i * ((Psi l).1 * (Psi l).1 + (Psi l).2 * (Psi l).2)
    let fieldsOut := m_fields.set comp.toNat (ft 1 Psi)
    .ok (some (fieldsOut, fun i => m_ar_k * res i))

/-!  Scheduler (`run_sequence`) arithmetic for a non-`set_momentum` stage. -/

/-- The C cast `int(x)` on a `double`: truncation toward zero. -/
def cppTruncInt (q : ℚ) : ℤ :=
if 0 ≤ q then ⌊q⌋ else ⌈q⌉

/-- Model of `max_duration = 0; for i: if (seq.duration[i] > max_duration)
max_duration = seq.duration[i];`. -/
def maxDuration (durations : List ℚ) : ℚ :=
durations.foldl (fun m d => if d > m then d else m) 0

/-- Lines 731-749 of `run_sequence` for a non-momentum-kick stage:
`subN = int(max_duration / seq.dt)`, `Na = subN / seq.Nk` (C++ `int`
division, truncating toward zero), and the purely informational mismatch
check `double(Na*Nk)*seq.dt != max_duration`, which only prints an FYI
line. Returns `(Na, subN, mismatch-logged)`; there is no error path. -/
def computeNa (durations : List ℚ) (seq_dt : ℚ) (Nk : ℤ) : ℤ × ℤ × Bool :=
let max_duration := maxDuration durations
let subN := cppTruncInt (max_duration / seq_dt)
let Na := subN.tdiv Nk
(Na, subN, decide (¬ ((Na * Nk : ℚ) * seq_dt = max_duration)))

/-!  The Propagating loop (lines 770-781), interpreted on `EngineState`.
`step_fct` for a `"freeprop"` stage is `Do_NL_Step` (the Potential Step),
`half_step_fct` is `Do_FT_Step_half` and `full_step_fct` is
`Do_FT_Step_full`. -/

/-- The inner `for (j = 2; j <= Nk; j++) { step_fct; full_step_fct; }`
loop, by number of remaining iterations (`Nk - 1` iterations in total for
`Nk ≥ 1`). -/
def runInner (cos sin : ℚ → ℚ) (ft : ℤ → Field → Field) :
    ℕ → EngineState → EngineState
  | 0, s => s
  | m + 1, s => runInner cos sin ft m (Do_FT_Step_full ft (Do_NL_Step cos sin s))

/-- One outer Propagating iteration (the body of `for (i = 1; i <= Na; i++)`):
`half_step_fct; for (j = 2; j <= Nk; j++) { step_fct; full_step_fct; };
step_fct; half_step_fct`. -/
def runOuterIter (cos sin : ℚ → ℚ) (ft : ℤ → Field → Field) (Nk : ℕ)
    (s : EngineState) : EngineState :=
let s1 := Do_FT_Step_half ft s
let s2 := runInner cos sin ft (Nk - 1) s1
let s3 := Do_NL_Step cos sin s2
Do_FT_Step_half ft s3

/-- The whole Propagating loop: `Na` outer iterations. -/
def runPropagating (cos sin : ℚ → ℚ) (ft : ℤ → Field → Field) (Nk : ℕ) :
    ℕ → EngineState → EngineState
  | 0, s => s
  | i + 1, s => runPropagating cos sin ft Nk i (runOuterIter cos sin ft Nk s)

/-!  File-system effects of one non-momentum-kick stage of `run_sequence`.
Filenames are the two `sprintf` formats, kept as distinct constructors;
the file system maps each name to its list of frames, a frame recording
which stage / outer iteration / component wrote it. -/

/-- One `(header, payload)` record written by `Save_Phi`/`Append_Phi`:
`stage` is the `seq_counter` of the writing stage, `iter` the outer
iteration (`Na` for the `freq::last` write), `comp` the internal state. -/
structure Frame where
  stage : ℕ
  iter : ℕ
  comp : ℕ
deriving DecidableEq

/-- A file name: `"Seq_%d_%d.bin"` (stage counter, component+1) or
`"%.3f_%d.bin"` (formatted time, component+1); the two formats never
collide and each is injective in its arguments. -/
inductive FName
  | seqFile (counter comp1 : ℕ)
  | timeFile (time : ℚ) (comp1 : ℕ)
deriving DecidableEq

/-- A file-system event of the stage loop: `std::remove`, `Append_Phi`
(append one frame), or `Save_Phi` (truncating write of one frame). -/
inductive FileEv
  | removeF (name : FName)
  | appendF (name : FName) (fr : Frame)
  | saveF (name : FName) (fr : Frame)

/-- The file system: contents (frame list) per file name. -/
def FS : Type := FName → List Frame

/-- Apply one event to the file system. -/
def applyEv (fs : FS) : FileEv → FS
  | .removeF name => fun f => if f = name then [] else fs f
  | .appendF name fr => fun f => if f = name then fs f ++ [fr] else fs f
  | .saveF name fr => fun f => if f = name then [fr] else fs f

/-- Apply a list of events left to right. -/
def applyEvs (fs : FS) : List FileEv → FS
  | [] => fs
  | e :: es => applyEvs (applyEv fs e) es

/-- The stage's snapshot cadence `seq.output_freq ∈ {none, each, packed, last}`. -/
inductive Freq
  | off
  | each
  | packed
  | last
deriving DecidableEq

/-- Lines 764-768: `for (k = 0; k < no_int_states; k++)
{ sprintf(filename, "Seq_%d_%d.bin", seq_counter, k+1); std::remove(filename); }`. -/
def removeEvents (n counter : ℕ) : List FileEv :=
(List.range n).map (fun k => .removeF (.seqFile counter (k + 1)))

/-- The snapshot events of outer iteration `i` (`timeOf i` abstracts the
formatted `Get_t()` used by the `freq::each` branch): `freq::each` saves
`"%.3f_%d.bin"` per component, `freq::packed` appends to
`"Seq_%d_%d.bin"` per component, otherwise nothing. -/
def iterEvents (n counter i : ℕ) (cad : Freq) (timeOf : ℕ → ℚ) : List FileEv :=
match cad with
| .each => (List.range n).map (fun k => .saveF (.timeFile (timeOf i) (k + 1)) ⟨counter, i, k + 1⟩)
| .packed => (List.range n).map (fun k => .appendF (.seqFile counter (k + 1)) ⟨counter, i, k + 1⟩)
| _ => []

/-- The `freq::last` events after the loop (lines 813-820). -/
def lastEvents (n counter Na : ℕ) (cad : Freq) (timeOf : ℕ → ℚ) : List FileEv :=
match cad with
| .last => (List.range n).map (fun k => .saveF (.timeFile (timeOf Na) (k + 1)) ⟨counter, Na, k + 1⟩)
| _ => []

/-- All file-system events of one non-momentum-kick stage with stage number
`counter`, `Na` outer iterations and snapshot cadence `cad`: first the
packed-file removals, then each outer iteration's snapshot events in order,
then the `freq::last` write. -/
def stageFileTrace (n counter Na : ℕ) (cad : Freq) (timeOf : ℕ → ℚ) : List FileEv :=
removeEvents n counter
  ++ ((List.range Na).map (fun i => iterEvents n counter (i + 1) cad timeOf)).flatten
  ++ lastEvents n counter Na cad timeOf

/-!  Helper lemmas. -/

theorem mapWithIdx_getElem? {α β : Type} (f : ℕ → α → β) :
    ∀ (l : List α) (j i : ℕ), (mapWithIdx f j l)[i]? = (l[i]?).map (f (j + i)) := by
  intro l
  induction l with
  | nil => intro j i; simp [mapWithIdx]
  | cons a as ih =>
    intro j i
    cases i with
    | zero => simp [mapWithIdx]
    | succ m =>
      simp only [mapWithIdx, List.getElem?_cons_succ]
      rw [ih (j + 1) m, Nat.add_assoc, Nat.add_comm 1 m]

/-- C4: `Init` computes, for every grid point `i` with momentum coordinate
`k = Get_k(i)`, the phase `phi = -dt * (k · diag(alpha) · k)` and writes the
half-step table entry as `(cos(phi/2), sin(phi/2))` and the full-step table
entry as `(cos(phi), sin(phi))`; for a 1-D grid with `alpha = [1]` the
half-step entry at each point is `(cos(-dt·k²/2), sin(-dt·k²/2))`. -/
theorem c4_operator_table_phases {dim : ℕ} (cos sin : ℚ → ℚ) (header_dt : ℚ)
    (m_alpha : CPoint dim) (getK : ℕ → CPoint dim) (i : ℕ) :
    ((Init cos sin header_dt m_alpha getK).1 i =
        (cos (-header_dt * cdot (cscale (getK i) m_alpha) (getK i) / 2),
         sin (-header_dt * cdot (cscale (getK i) m_alpha) (getK i) / 2)) ∧
      (Init cos sin header_dt m_alpha getK).2 i =
        (cos (-header_dt * cdot (cscale (getK i) m_alpha) (getK i)),
         sin (-header_dt * cdot (cscale (getK i) m_alpha) (getK i)))) ∧
    (∀ (getK1 : ℕ → CPoint 1) (d : ℚ) (j : ℕ),
      (Init cos sin d (fun _ => 1) getK1).1 j =
        (cos (-(d * (getK1 j 0) ^ 2) / 2), sin (-(d * (getK1 j 0) ^ 2) / 2))) := by
  refine ⟨⟨?_, ?_⟩, ?_⟩
  · show (cos (0.5 * (-header_dt * cdot (cscale (getK i) m_alpha) (getK i))),
        sin (0.5 * (-header_dt * cdot (cscale (getK i) m_alpha) (getK i)))) = _
    have h : 0.5 * (-header_dt * cdot (cscale (getK i) m_alpha) (getK i)) =
        -header_dt * cdot (cscale (getK i) m_alpha) (getK i) / 2 := by ring
    rw [h]
  · rfl
  · intro getK1 d j
    show (cos (0.5 * (-d * cdot (cscale (getK1 j) (fun _ => 1)) (getK1 j))),
        sin (0.5 * (-d * cdot (cscale (getK1 j) (fun _ => 1)) (getK1 j)))) = _
    have hdot : cdot (cscale (getK1 j) (fun _ => 1)) (getK1 j) = (getK1 j 0) * 1 * (getK1 j 0) := by
      simp [cdot, cscale]
    rw [hdot]
    have h : 0.5 * (-d * (getK1 j 0 * 1 * getK1 j 0)) = -(d * (getK1 j 0) ^ 2) / 2 := by ring
    rw [h]

/-- C7: `Do_FT_Step_full` advances the header's accumulated time `t` by
exactly `dt`, and `Do_FT_Step_half` by exactly `dt/2`; both leave the
operator tables, the potential array and flag, and the header's `dt`
unchanged. -/
theorem c7_kinetic_steps_time_and_frame (ft : ℤ → Field → Field) (s : EngineState) :
    (Do_FT_Step_full ft s).t = s.t + s.dt ∧
    (Do_FT_Step_half ft s).t = s.t + s.dt / 2 ∧
    (Do_FT_Step_full ft s).dt = s.dt ∧
    (Do_FT_Step_half ft s).dt = s.dt ∧
    (Do_FT_Step_full ft s).m_full_step = s.m_full_step ∧
    (Do_FT_Step_full ft s).m_half_step = s.m_half_step ∧
    (Do_FT_Step_half ft s).m_full_step = s.m_full_step ∧
    (Do_FT_Step_half ft s).m_half_step = s.m_half_step ∧
    (Do_FT_Step_full ft s).m_Potential = s.m_Potential ∧
    (Do_FT_Step_half ft s).m_Potential = s.m_Potential ∧
    (Do_FT_Step_full ft s).m_potInit = s.m_potInit ∧
    (Do_FT_Step_half ft s).m_potInit = s.m_potInit := by
  refine ⟨rfl, ?_, rfl, rfl, rfl, rfl, rfl, rfl, rfl, rfl, rfl, rfl⟩
  show s.t + 0.5 * s.dt = s.t + s.dt / 2
  ring

/-- C5: the Nonlinear/Potential Step rotates each field value at each point
by `(cos(phi), sin(phi))` with `phi = -dt * (static potential at that point,
or 0 when the potential is uninitialized)`; the density-dependent term is
computed but never enters `phi` (the result is independent of the density,
and the `density ≤ 0` branch contributes exactly zero phase). -/
theorem c5_nl_step_rotates_by_potential_phase (cos sin : ℚ → ℚ)
    (s : EngineState) (i : Fin s.m_fields.length) (l : ℕ) (dflt : Field) :
    ((Do_NL_Step cos sin s).m_fields.getD i.val dflt) l =
      (let z := (s.m_fields.getD i.val dflt) l
       let phi := -s.dt * (if s.m_potInit then s.m_Potential i.val l else 0)
       (z.1 * cos phi - z.2 * sin phi, z.2 * cos phi + z.1 * sin phi)) := by
  have hget : s.m_fields[i.val]? = some (s.m_fields.get i) := by
    rw [List.getElem?_eq_getElem i.isLt]
    rfl
  have hmap : (Do_NL_Step cos sin s).m_fields[i.val]? =
      some (Do_NL_Step_field cos sin (-s.dt) s.m_potInit (s.m_Potential i.val)
        (s.m_fields.get i)) := by
    show (mapWithIdx _ 0 s.m_fields)[i.val]? = _
    rw [mapWithIdx_getElem?, hget]
    simp
  rw [List.getD_eq_getElem?_getD, hmap, List.getD_eq_getElem?_getD, hget]
  show Do_NL_Step_field cos sin (-s.dt) s.m_potInit (s.m_Potential i.val)
      (s.m_fields.get i) l = _
  simp only [Do_NL_Step_field]
  set z := s.m_fields.get i l with hz
  by_cases hden : z.1 * z.1 + z.2 * z.2 ≤ 0 <;>
    simp only [hden, if_pos, if_neg, if_true, if_false, add_zero, not_true, not_false_iff] <;>
    rw [mul_comm (if s.m_potInit then s.m_Potential i.val l else 0) (-s.dt)]
  · simp [hden, hz, List.get_eq_getElem]
  · simp [hden, hz, List.get_eq_getElem]

/-!  Concrete sample data used by closed theorems and witnesses. -/

/-- A concrete constant field. -/
def constF : Field := fun _ => (1, 0)

/-- A trivial stand-in for `cos`/`sin`. -/
def zeroQ : ℚ → ℚ := fun _ => 0

/-- A trivial 1-D coordinate lookup. -/
def xTrivial : ℕ → CPoint 1 := fun _ _ => 0

/-- A trivial 1-D momentum vector. -/
def pxTrivial : CPoint 1 := fun _ => 0

/-- The identity Fourier transform (a valid round-trip capability). -/
def ftId : ℤ → Field → Field := fun _ Psi => Psi

/-- A concrete engine state whose potential has not been initialized. -/
def uninitState : EngineState :=
{ m_fields := [constF]
  m_full_step := fun _ => (1, 0)
  m_half_step := fun _ => (1, 0)
  m_Potential := fun _ _ => 0
  m_potInit := false
  t := 0
  dt := 1 }

/-- C1: the bounds guard in `Setup_Momentum`, `Get_Particle_Number`,
`Expval_Position` and `Expval_Momentum` is `comp<0 || comp>no_int_states`,
so `comp == no_int_states` is NOT rejected: with `no_int_states = 2` and
`comp = 2`, none of the four functions raises the out-of-range error; each
instead reaches the out-of-bounds access `m_fields[no_int_states]`
(modelled as `.ok none`), contradicting the claim that `comp =
no_int_states` fails with an out-of-range error. -/
theorem c1_guard_admits_no_int_states :
    Get_Particle_Number 2 4 1 [constF, constF] 2 = .ok none ∧
    Setup_Momentum 2 zeroQ zeroQ xTrivial pxTrivial [constF, constF] 2 = .ok none ∧
    Expval_Position 2 4 1 xTrivial [constF, constF] 2 = .ok none ∧
    Expval_Momentum 2 4 1 ftId xTrivial [constF, constF] 2 = .ok none :=
⟨rfl, rfl, rfl, rfl⟩

/-- C6 counterexample: calling `Setup_Potential` before `Init_Potential`
does not raise a catchable typed failure: the source executes a bare
`throw;` with no exception in flight, which calls `std::terminate`
(`terminated` in the embedding, never `thrown`). -/
theorem c6_counterexample_bare_rethrow :
    Setup_Potential 1 8 uninitState 0 0 1 = .terminated uninitState ∧
    (Setup_Potential 1 8 uninitState 0 0 1).isThrown = false :=
⟨rfl, rfl⟩

/-- C6 (amended): calling `Setup_Potential` before `Init_Potential` fails
fatally — a bare `throw;` with no active exception, i.e. `std::terminate`,
not a catchable typed exception — and leaves the potential arrays and the
initialization flag (indeed the whole engine state) unchanged. -/
theorem c6_amended_terminates_without_mutation
    (no_int_states m_no_of_pts : ℕ) (fields : List Field)
    (fullT halfT : ℕ → ComplexQ) (pot : ℕ → ℕ → ℚ) (t dt : ℚ)
    (comp index : ℤ) (val : ℚ) :
    Setup_Potential no_int_states m_no_of_pts
        ⟨fields, fullT, halfT, pot, false, t, dt⟩ comp index val =
      .terminated ⟨fields, fullT, halfT, pot, false, t, dt⟩ :=
rfl

/-- C2 counterexample: with one duration `10`, `dt = 1` and `Nk = 2`, the
scheduler computes `Na = int(10/1)/2 = 5`, not
`floor(max(duration)/dt) = 10` as the claim states. -/
theorem c2_counterexample_Nk2 :
    (computeNa [10] 1 2).1 ≠ cppTruncInt (maxDuration [10] / 1) ∧
    (computeNa [10] 1 2).1 = 5 ∧
    cppTruncInt (maxDuration [10] / 1) = 10 := by
  have hmax : maxDuration [10] = 10 := by norm_num [maxDuration]
  have htr : cppTruncInt (maxDuration [10] / 1) = 10 := by
    rw [hmax]
    norm_num [cppTruncInt]
  have hNa : (computeNa [10] 1 2).1 = 5 := by
    show (cppTruncInt (maxDuration [10] / 1)).tdiv 2 = 5
    rw [htr]
    decide
  exact ⟨by rw [hNa, htr]; decide, hNa, htr⟩

/-- Folding the `if (d > m) m = d` maximum update never decreases the
accumulator. -/
theorem le_foldl_max (ds : List ℚ) :
    ∀ a : ℚ, a ≤ ds.foldl (fun m d => if d > m then d else m) a := by
  induction ds with
  | nil => intro a; simp
  | cons d ds ih =>
    intro a
    refine le_trans ?_ (ih (if d > a then d else a))
    by_cases h : d > a
    · simp only [if_pos h]
      exact le_of_lt h
    · simp only [if_neg h]
      exact le_refl a

/-- The source's `max_duration` starts at `0` and only ever increases. -/
theorem maxDuration_nonneg (ds : List ℚ) : 0 ≤ maxDuration ds :=
le_foldl_max ds 0

/-- C2 (amended): for a non-momentum-kick stage with per-component
durations, time step `dt > 0` and sub-step count `Nk > 0`, the scheduler
computes `subN = floor(max(duration-per-component)/dt)` and the number of
outer Propagating iterations as `Na = subN / Nk` (integer division), i.e.
`Na = floor(floor(max/dt)/Nk)` — the claim's formula divided once more by
`Nk`; a `dt` that does not exactly divide the duration only sets the
informational log flag (the third component), there is no error path. -/
theorem c2_amended_Na_formula (durations : List ℚ) (seq_dt : ℚ) (Nk : ℤ)
    (hdt : 0 < seq_dt) (hNk : 0 < Nk) :
    (computeNa durations seq_dt Nk).1 = ⌊maxDuration durations / seq_dt⌋ / Nk ∧
    (computeNa durations seq_dt Nk).2.1 = ⌊maxDuration durations / seq_dt⌋ := by
  have h0 : 0 ≤ maxDuration durations / seq_dt :=
    div_nonneg (maxDuration_nonneg durations) (le_of_lt hdt)
  have htr : cppTruncInt (maxDuration durations / seq_dt) =
      ⌊maxDuration durations / seq_dt⌋ := by
    simp [cppTruncInt, h0]
  constructor
  · show (cppTruncInt (maxDuration durations / seq_dt)).tdiv Nk = _
    rw [htr, Int.tdiv_eq_ediv (Int.floor_nonneg.mpr h0) (le_of_lt hNk)]
  · exact htr

/-- Witness for the amended C2 theorem at `durations = [3]`, `dt = 2`,
`Nk = 2`. -/
theorem c2_amended_Na_formula_witness :
    (0 : ℚ) < 2 ∧ (0 : ℤ) < 2 ∧
    ((computeNa [3] 2 2).1 = ⌊maxDuration [3] / 2⌋ / 2 ∧
      (computeNa [3] 2 2).2.1 = ⌊maxDuration [3] / 2⌋) :=
⟨by norm_num, by norm_num, c2_amended_Na_formula [3] 2 2 (by norm_num) (by norm_num)⟩

/-- The inner `j`-loop is the `(Nk-1)`-fold iterate of
(Potential Step, then Full Kinetic Step). -/
theorem runInner_eq_iterate (cos sin : ℚ → ℚ) (ft : ℤ → Field → Field) :
    ∀ (m : ℕ) (s : EngineState),
      runInner cos sin ft m s =
        (fun u => Do_FT_Step_full ft (Do_NL_Step cos sin u))^[m] s := by
  intro m
  induction m with
  | zero => intro s; rfl
  | succ m ih =>
    intro s
    show runInner cos sin ft m (Do_FT_Step_full ft (Do_NL_Step cos sin s)) = _
    rw [ih, Function.iterate_succ_apply]

/-- The Propagating loop is the `Na`-fold iterate of one outer iteration. -/
theorem runPropagating_eq_iterate (cos sin : ℚ → ℚ) (ft : ℤ → Field → Field)
    (Nk : ℕ) : ∀ (Na : ℕ) (s : EngineState),
      runPropagating cos sin ft Nk Na s = (runOuterIter cos sin ft Nk)^[Na] s := by
  intro Na
  induction Na with
  | zero => intro s; rfl
  | succ m ih =>
    intro s
    show runPropagating cos sin ft Nk m (runOuterIter cos sin ft Nk s) = _
    rw [ih, Function.iterate_succ_apply]

/-- C3: each of the `Na` outer Propagating iterations applies exactly one
Half Kinetic Step, then the pair (Potential Step, Full Kinetic Step)
iterated `Nk-1` times, then one Potential Step, then one Half Kinetic Step,
in that order; for `Nk = 1` one outer iteration is exactly
Half Kinetic Step, then Potential Step, then Half Kinetic Step. -/
theorem c3_outer_iteration_is_strang_bracket (cos sin : ℚ → ℚ)
    (ft : ℤ → Field → Field) (Nk : ℕ) (s : EngineState) :
    (runOuterIter cos sin ft Nk s =
      Do_FT_Step_half ft (Do_NL_Step cos sin
        ((fun u => Do_FT_Step_full ft (Do_NL_Step cos sin u))^[Nk - 1]
          (Do_FT_Step_half ft s)))) ∧
    (runOuterIter cos sin ft 1 s =
      Do_FT_Step_half ft (Do_NL_Step cos sin (Do_FT_Step_half ft s))) ∧
    (∀ Na : ℕ, runPropagating cos sin ft Nk Na s =
      (runOuterIter cos sin ft Nk)^[Na] s) := by
  refine ⟨?_, ?_, fun Na => runPropagating_eq_iterate cos sin ft Nk Na s⟩
  · show Do_FT_Step_half ft (Do_NL_Step cos sin
        (runInner cos sin ft (Nk - 1) (Do_FT_Step_half ft s))) = _
    rw [runInner_eq_iterate]
  · show Do_FT_Step_half ft (Do_NL_Step cos sin
        (runInner cos sin ft 0 (Do_FT_Step_half ft s))) = _
    rfl

/-- The inner `j`-loop advances `t` by one `dt` per iteration and leaves
`dt` itself unchanged. -/
theorem runInner_time (cos sin : ℚ → ℚ) (ft : ℤ → Field → Field) :
    ∀ (m : ℕ) (s : EngineState),
      (runInner cos sin ft m s).t = s.t + (m : ℚ) * s.dt ∧
      (runInner cos sin ft m s).dt = s.dt := by
  intro m
  induction m with
  | zero =>
    intro s
    constructor
    · show s.t = s.t + (0 : ℚ) * s.dt
      ring
    · rfl
  | succ m ih =>
    intro s
    have hbody : (Do_FT_Step_full ft (Do_NL_Step cos sin s)).t = s.t + s.dt := rfl
    have hbodydt : (Do_FT_Step_full ft (Do_NL_Step cos sin s)).dt = s.dt := rfl
    have h := ih (Do_FT_Step_full ft (Do_NL_Step cos sin s))
    constructor
    · show (runInner cos sin ft m (Do_FT_Step_full ft (Do_NL_Step cos sin s))).t = _
      rw [h.1, hbody, hbodydt]
      push_cast
      ring
    · show (runInner cos sin ft m (Do_FT_Step_full ft (Do_NL_Step cos sin s))).dt = _
      rw [h.2, hbodydt]

/-- C10: `Do_NL_Step` never modifies the header's accumulated time `t` or
the time step `dt`; consequently each outer Propagating iteration with
`Nk = m+1 ≥ 1` sub-steps advances the simulated time by exactly `Nk * dt`
(two half steps plus `Nk-1` full steps). -/
theorem c10_nl_step_time_frame_and_outer_advance (cos sin : ℚ → ℚ)
    (ft : ℤ → Field → Field) (s : EngineState) :
    ((Do_NL_Step cos sin s).t = s.t ∧ (Do_NL_Step cos sin s).dt = s.dt) ∧
    (∀ (m : ℕ) (u : EngineState),
      (runOuterIter cos sin ft (m + 1) u).t = u.t + ((m + 1 : ℕ) : ℚ) * u.dt) := by
  refine ⟨⟨rfl, rfl⟩, fun m u => ?_⟩
  have h1t : (Do_FT_Step_half ft u).t = u.t + 0.5 * u.dt := rfl
  have h1dt : (Do_FT_Step_half ft u).dt = u.dt := rfl
  have h2 := runInner_time cos sin ft (m + 1 - 1) (Do_FT_Step_half ft u)
  show (Do_FT_Step_half ft (Do_NL_Step cos sin
      (runInner cos sin ft (m + 1 - 1) (Do_FT_Step_half ft u)))).t = _
  have h3t : (Do_FT_Step_half ft (Do_NL_Step cos sin
      (runInner cos sin ft (m + 1 - 1) (Do_FT_Step_half ft u)))).t =
      (runInner cos sin ft (m + 1 - 1) (Do_FT_Step_half ft u)).t +
        0.5 * (runInner cos sin ft (m + 1 - 1) (Do_FT_Step_half ft u)).dt := rfl
  rw [h3t, h2.1, h2.2, h1t, h1dt]
  have hm : m + 1 - 1 = m := rfl
  rw [hm]
  push_cast
  ring

/-- Writing back the element a list already holds leaves it unchanged. -/
theorem set_own_getElem {α : Type} (l : List α) (i : ℕ) (h : i < l.length) :
    l.set i l[i] = l := by
  apply List.ext_getElem?
  intro n
  by_cases hn : n = i
  · subst hn
    rw [List.getElem?_set_self h, List.getElem?_eq_getElem h]
  · exact List.getElem?_set_ne (fun he => hn he.symm)

/-- C8: for every field state and valid component index, `Expval_Momentum`
transforms the chosen field to momentum space (`ft(-1)`) before the
accumulation and back (`ft(1)`) afterward; assuming the transform
capability's round-trip contract `ft(1) ∘ ft(-1) = id`, the returned field
list equals the one before the call — the chosen field's position-space
representation is restored and no other field is touched. -/
theorem c8_expval_momentum_restores_fields {dim : ℕ}
    (no_int_states m_no_of_pts : ℕ) (m_ar_k : ℚ) (ft : ℤ → Field → Field)
    (getK : ℕ → CPoint dim) (m_fields : List Field) (comp : ℕ)
    (hlen : m_fields.length = no_int_states)
    (hcomp : comp < no_int_states)
    (hround : ∀ Psi : Field, ft 1 (ft (-1) Psi) = Psi) :
    ∃ retval : CPoint dim,
      Expval_Momentum no_int_states m_no_of_pts m_ar_k ft getK m_fields
          ((comp : ℤ)) = .ok (some (m_fields, retval)) := by
  have hc : ¬ ((comp : ℤ) < 0 ∨ (comp : ℤ) > (no_int_states : ℤ)) := by
    push_neg
    exact ⟨Int.natCast_nonneg comp, by exact_mod_cast le_of_lt hcomp⟩
  have hlt : comp < m_fields.length := by rw [hlen]; exact hcomp
  simp only [Expval_Momentum, if_neg hc, Int.toNat_natCast,
    List.getElem?_eq_getElem hlt]
  rw [hround, set_own_getElem m_fields comp hlt]
  exact ⟨_, rfl⟩

/-- Witness for the C8 theorem: one field, `comp = 0`, the identity
transform (which trivially satisfies the round-trip contract). -/
theorem c8_expval_momentum_restores_fields_witness :
    ([constF].length = 1 ∧ 0 < 1 ∧ (∀ Psi : Field, ftId 1 (ftId (-1) Psi) = Psi)) ∧
    ∃ retval : CPoint 1,
      Expval_Momentum 1 4 1 ftId xTrivial [constF] ((0 : ℕ) : ℤ) =
        .ok (some ([constF], retval)) :=
⟨⟨rfl, Nat.one_pos, fun _ => rfl⟩,
  c8_expval_momentum_restores_fields 1 4 1 ftId xTrivial [constF] 0 rfl
    Nat.one_pos (fun _ => rfl)⟩

/-!  Lemmas about the file-event semantics, for C9. -/

theorem applyEvs_append (evs₁ evs₂ : List FileEv) :
    ∀ fs : FS, applyEvs fs (evs₁ ++ evs₂) = applyEvs (applyEvs fs evs₁) evs₂ := by
  induction evs₁ with
  | nil => intro fs; rfl
  | cons e es ih => intro fs; exact ih (applyEv fs e)

/-- An event addresses the file name `f`. -/
def touchesName (f : FName) : FileEv → Prop
  | .removeF g => g = f
  | .appendF g _ => g = f
  | .saveF g _ => g = f

theorem applyEv_not_touch {f : FName} {e : FileEv} (h : ¬ touchesName f e)
    (fs : FS) : applyEv fs e f = fs f := by
  cases e with
  | removeF g =>
    show (if f = g then [] else fs f) = fs f
    rw [if_neg (fun hf => h (by simpa [touchesName] using hf.symm))]
  | appendF g fr =>
    show (if f = g then fs f ++ [fr] else fs f) = fs f
    rw [if_neg (fun hf => h (by simpa [touchesName] using hf.symm))]
  | saveF g fr =>
    show (if f = g then [fr] else fs f) = fs f
    rw [if_neg (fun hf => h (by simpa [touchesName] using hf.symm))]

theorem applyEvs_not_touch {f : FName} :
    ∀ {evs : List FileEv}, (∀ e ∈ evs, ¬ touchesName f e) →
      ∀ fs : FS, applyEvs fs evs f = fs f := by
  intro evs
  induction evs with
  | nil => intro _ fs; rfl
  | cons e es ih =>
    intro h fs
    show applyEvs (applyEv fs e) es f = fs f
    rw [ih (fun x hx => h x (List.mem_cons_of_mem e hx)) (applyEv fs e),
      applyEv_not_touch (h e (List.mem_cons_self e es)) fs]

/-- After the stage's removal loop, every packed file of the stage is empty. -/
theorem applyEvs_removeEvents {n counter k : ℕ} (hk : k < n) :
    ∀ fs : FS, applyEvs fs (removeEvents n counter) (.seqFile counter (k + 1)) = [] := by
  induction n with
  | zero => omega
  | succ n ih =>
    intro fs
    have hsplit : removeEvents (n + 1) counter =
        removeEvents n counter ++ [.removeF (.seqFile counter (n + 1))] := by
      show (List.range (n + 1)).map _ = _
      rw [List.range_succ, List.map_append]
      rfl
    rw [hsplit, applyEvs_append]
    by_cases hkn : k < n
    · show (if (FName.seqFile counter (k + 1)) = (FName.seqFile counter (n + 1))
          then ([] : List Frame) else applyEvs fs (removeEvents n counter)
            (.seqFile counter (k + 1))) = []
      rw [ih hkn fs]
      split <;> rfl
    · have hk' : k = n := by omega
      subst hk'
      show (if (FName.seqFile counter (k + 1)) = (FName.seqFile counter (k + 1))
          then ([] : List Frame) else _) = []
      rw [if_pos rfl]

/-- Every event of the removal loop is a `removeF`. -/
theorem removeEvents_all_removes {n counter : ℕ} {e : FileEv}
    (he : e ∈ removeEvents n counter) : ∃ g, e = .removeF g := by
  rcases List.mem_map.mp he with ⟨k, _, rfl⟩
  exact ⟨_, rfl⟩

/-- One packed-cadence outer iteration appends exactly one frame to the
packed file of each component and touches no other packed file. -/
theorem applyEvs_iterEvents_packed {n counter k : ℕ} (i : ℕ) (timeOf : ℕ → ℚ)
    (hk : k < n) : ∀ fs : FS,
      applyEvs fs (iterEvents n counter i .packed timeOf) (.seqFile counter (k + 1)) =
        fs (.seqFile counter (k + 1)) ++ [⟨counter, i, k + 1⟩] := by
  induction n with
  | zero => omega
  | succ n ih =>
    intro fs
    have hsplit : iterEvents (n + 1) counter i .packed timeOf =
        iterEvents n counter i .packed timeOf ++
          [.appendF (.seqFile counter (n + 1)) ⟨counter, i, n + 1⟩] := by
      show (List.range (n + 1)).map _ = _
      rw [List.range_succ, List.map_append]
      rfl
    rw [hsplit, applyEvs_append]
    by_cases hkn : k < n
    · show (if (FName.seqFile counter (k + 1)) = (FName.seqFile counter (n + 1))
          then applyEvs fs (iterEvents n counter i .packed timeOf)
              (.seqFile counter (k + 1)) ++ [⟨counter, i, n + 1⟩]
          else applyEvs fs (iterEvents n counter i .packed timeOf)
              (.seqFile counter (k + 1))) = _
      rw [if_neg (by simp; omega), ih hkn fs]
    · have hk' : k = n := by omega
      subst hk'
      have huntouched : applyEvs fs (iterEvents k counter i .packed timeOf)
          (.seqFile counter (k + 1)) = fs (.seqFile counter (k + 1)) := by
        refine applyEvs_not_touch ?_ fs
        intro e he
        rcases List.mem_map.mp he with ⟨k', hk', rfl⟩
        have : k' < k := List.mem_range.mp hk'
        show ¬ (FName.seqFile counter (k' + 1) = FName.seqFile counter (k + 1))
        simp
        omega
      show (if (FName.seqFile counter (k + 1)) = (FName.seqFile counter (k + 1))
          then applyEvs fs (iterEvents k counter i .packed timeOf)
              (.seqFile counter (k + 1)) ++ [⟨counter, i, k + 1⟩]
          else _) = _
      rw [if_pos rfl, huntouched]

/-- Content of a packed file after the Propagating loop's append events for
the outer iterations listed in `is`. -/
theorem packed_loop_content {n counter k : ℕ} (timeOf : ℕ → ℚ) (hk : k < n) :
    ∀ (is : List ℕ) (fs : FS),
      applyEvs fs ((is.map (fun i => iterEvents n counter (i + 1) .packed timeOf)).flatten)
          (.seqFile counter (k + 1)) =
        fs (.seqFile counter (k + 1)) ++ is.map (fun i => (⟨counter, i + 1, k + 1⟩ : Frame)) := by
  intro is
  induction is with
  | nil => intro fs; simp [applyEvs]
  | cons i is ih =>
    intro fs
    show applyEvs fs (iterEvents n counter (i + 1) .packed timeOf ++ _)
        (.seqFile counter (k + 1)) = _
    rw [applyEvs_append, ih, applyEvs_iterEvents_packed (i + 1) timeOf hk fs]
    simp

/-- Every frame carried by an event (append or truncating save) has the
stage number `c`. -/
def evFrameStage (c : ℕ) : FileEv → Prop
  | .removeF _ => True
  | .appendF _ fr => fr.stage = c
  | .saveF _ fr => fr.stage = c

/-- If every event's frame carries stage number `c` and the file currently
holds only stage-`c` frames, this remains true after any run of events. -/
theorem stage_frames_invariant {c : ℕ} {f : FName} :
    ∀ {evs : List FileEv}, (∀ e ∈ evs, evFrameStage c e) →
      ∀ {fs : FS}, (∀ fr ∈ fs f, fr.stage = c) →
        ∀ fr ∈ applyEvs fs evs f, fr.stage = c := by
  intro evs
  induction evs with
  | nil => intro _ fs h fr hfr; exact h fr hfr
  | cons e es ih =>
    intro hevs fs hfs fr hfr
    refine ih (fun x hx => hevs x (List.mem_cons_of_mem e hx)) ?_ fr hfr
    have he := hevs e (List.mem_cons_self e es)
    intro fr' hfr'
    cases e with
    | removeF g =>
      by_cases hg : f = g
      · simp [applyEv, hg] at hfr'
      · simp only [applyEv, if_neg hg] at hfr'
        exact hfs fr' hfr'
    | appendF g fr₀ =>
      by_cases hg : f = g
      · simp only [applyEv, if_pos hg, List.mem_append, List.mem_singleton] at hfr'
        rcases hfr' with h1 | h2
        · exact hfs fr' h1
        · rw [h2]; exact he
      · simp only [applyEv, if_neg hg] at hfr'
        exact hfs fr' hfr'
    | saveF g fr₀ =>
      by_cases hg : f = g
      · simp only [applyEv, if_pos hg, List.mem_singleton] at hfr'
        rw [hfr']; exact he
      · simp only [applyEv, if_neg hg] at hfr'
        exact hfs fr' hfr'

/-- Every event of the post-removal part of a stage trace carries a frame
with the stage's own counter. -/
theorem stage_rest_evFrameStage {n counter Na : ℕ} {cad : Freq}
    {timeOf : ℕ → ℚ} {e : FileEv}
    (he : e ∈ ((List.range Na).map
        (fun i => iterEvents n counter (i + 1) cad timeOf)).flatten
      ++ lastEvents n counter Na cad timeOf) :
    evFrameStage counter e := by
  rcases List.mem_append.mp he with h | h
  · rcases List.mem_flatten.mp h with ⟨li, hli, hei⟩
    rcases List.mem_map.mp hli with ⟨i, _, rfl⟩
    cases cad with
    | off => simp [iterEvents] at hei
    | each =>
      rcases List.mem_map.mp hei with ⟨k', _, rfl⟩
      exact rfl
    | packed =>
      rcases List.mem_map.mp hei with ⟨k', _, rfl⟩
      exact rfl
    | last => simp [iterEvents] at hei
  · cases cad with
    | off => simp [lastEvents] at h
    | each => simp [lastEvents] at h
    | packed => simp [lastEvents] at h
    | last =>
      rcases List.mem_map.mp h with ⟨k', _, rfl⟩
      exact rfl

/-- C9: for every (non-momentum-kick) stage, the packed output file
`Seq_<stage>_<component>.bin` of each component is removed before the
first append of the stage (first conjunct); consequently, at any point of
the stage at which at least one append to that file has already happened,
the file holds only frames written by this stage (last conjunct); and
after a stage with packed cadence the file holds exactly the stage's `Na`
frames, one per outer iteration, regardless of the initial file-system
contents (middle conjuncts). -/
theorem c9_packed_file_lifecycle (n Na counter : ℕ) (timeOf : ℕ → ℚ)
    (cad : Freq) (k : Fin n) (fs : FS) :
    (∃ l₁ l₂, stageFileTrace n counter Na cad timeOf =
        l₁ ++ FileEv.removeF (.seqFile counter (k.val + 1)) :: l₂ ∧
        ∀ fr : Frame, FileEv.appendF (.seqFile counter (k.val + 1)) fr ∉ l₁) ∧
    (applyEvs fs (stageFileTrace n counter Na .packed timeOf)
        (.seqFile counter (k.val + 1)) =
      (List.range Na).map (fun i => (⟨counter, i + 1, k.val + 1⟩ : Frame))) ∧
    ((applyEvs fs (stageFileTrace n counter Na .packed timeOf)
        (.seqFile counter (k.val + 1))).length = Na) ∧
    (∀ l₁ l₂, stageFileTrace n counter Na cad timeOf = l₁ ++ l₂ →
      (∃ fr, FileEv.appendF (.seqFile counter (k.val + 1)) fr ∈ l₁) →
      ∀ fr ∈ applyEvs fs l₁ (.seqFile counter (k.val + 1)), fr.stage = counter) := by
  have hb : applyEvs fs (stageFileTrace n counter Na .packed timeOf)
      (.seqFile counter (k.val + 1)) =
      (List.range Na).map (fun i => (⟨counter, i + 1, k.val + 1⟩ : Frame)) := by
    show applyEvs fs (removeEvents n counter ++ _ ++ lastEvents n counter Na .packed timeOf)
        (.seqFile counter (k.val + 1)) = _
    have hlast : lastEvents n counter Na .packed timeOf = [] := rfl
    rw [hlast, List.append_nil, applyEvs_append,
      packed_loop_content timeOf k.isLt (List.range Na),
      applyEvs_removeEvents k.isLt fs]
    rfl
  refine ⟨?_, hb, by rw [hb]; simp, ?_⟩
  · have hmem : FileEv.removeF (.seqFile counter (k.val + 1)) ∈ removeEvents n counter :=
      List.mem_map.mpr ⟨k.val, List.mem_range.mpr k.isLt, rfl⟩
    rcases List.append_of_mem hmem with ⟨s, t, hst⟩
    refine ⟨s, t ++ (((List.range Na).map
        (fun i => iterEvents n counter (i + 1) cad timeOf)).flatten
      ++ lastEvents n counter Na cad timeOf), ?_, ?_⟩
    · simp only [stageFileTrace]
      rw [List.append_assoc, hst, List.append_assoc, List.cons_append]
    · intro fr hfr
      have : FileEv.appendF (.seqFile counter (k.val + 1)) fr ∈ removeEvents n counter := by
        rw [hst]
        exact List.mem_append_left _ hfr
      rcases removeEvents_all_removes this with ⟨g, hg⟩
      exact FileEv.noConfusion hg
  · intro l₁ l₂ htr ⟨fr₀, hfr₀⟩ fr hfr
    have htr' : removeEvents n counter ++
        (((List.range Na).map (fun i => iterEvents n counter (i + 1) cad timeOf)).flatten
          ++ lastEvents n counter Na cad timeOf) = l₁ ++ l₂ := by
      rw [← List.append_assoc]
      exact htr
    rcases List.append_eq_append_iff.mp htr' with ⟨a', ha1, ha2⟩ | ⟨c', hc1, hc2⟩
    · subst ha1
      rw [applyEvs_append] at hfr
      refine stage_frames_invariant (fun e he => ?_) (fun fr' hfr' => ?_) fr hfr
      · refine @stage_rest_evFrameStage n counter Na cad timeOf e ?_
        rw [ha2]
        exact List.mem_append_left l₂ he
      · rw [applyEvs_removeEvents k.isLt fs] at hfr'
        simp at hfr'
    · exfalso
      have : FileEv.appendF (.seqFile counter (k.val + 1)) fr₀ ∈ removeEvents n counter := by
        rw [hc1]
        exact List.mem_append_left _ hfr₀
      rcases removeEvents_all_removes this with ⟨g, hg⟩
      exact FileEv.noConfusion hg

/-- Witness for the C9 theorem at `n = 1`, `Na = 2`, `counter = 3`, packed
cadence, component `k = 0`, empty initial file system. -/
theorem c9_packed_file_lifecycle_witness :
    (∃ l₁ l₂, stageFileTrace 1 3 2 .packed (fun _ => 0) =
        l₁ ++ FileEv.removeF (.seqFile 3 1) :: l₂ ∧
        ∀ fr : Frame, FileEv.appendF (.seqFile 3 1) fr ∉ l₁) ∧
    (applyEvs (fun _ => []) (stageFileTrace 1 3 2 .packed (fun _ => 0))
        (.seqFile 3 1) =
      (List.range 2).map (fun i => (⟨3, i + 1, 1⟩ : Frame))) ∧
    ((applyEvs (fun _ => []) (stageFileTrace 1 3 2 .packed (fun _ => 0))
        (.seqFile 3 1)).length = 2) ∧
    (∀ l₁ l₂, stageFileTrace 1 3 2 .packed (fun _ => 0) = l₁ ++ l₂ →
      (∃ fr, FileEv.appendF (.seqFile 3 1) fr ∈ l₁) →
      ∀ fr ∈ applyEvs (fun _ => []) l₁ (.seqFile 3 1), fr.stage = 3) :=
c9_packed_file_lifecycle 1 2 3 (fun _ => 0) .packed ⟨0, Nat.one_pos⟩ (fun _ => [])

end CRTBase
